import Mathlib

/-!
Verification of the completion core of the DjangoQL admin widget
(`djangoql/static/js/djangoql_completion_admin.js`): the query tokenizer,
the dotted-name resolver, the cursor-context resolver and the suggestion
generator.  JavaScript strings are embedded as `List Char`; JavaScript
`null`/`undefined` values are embedded as `Option.none`; statements that can
raise a `TypeError` (member access on `undefined`) are embedded in
`Except Unit`, with `.error ()` standing for a thrown exception.
-/

namespace DjangoQL

/-! ## Tokens

One constructor per token name produced by the lexer rules
(`lexer.addRule` calls, lines 75-115 of the source). -/

inductive TokName where
  | DOT | COMMA | OR | AND | NOT | IN | TRUE | FALSE | NONE
  | NAME | STRING_VALUE | INT_VALUE | FLOAT_VALUE
  | PAREN_L | PAREN_R
  | EQUALS | NOT_EQUALS | GREATER | GREATER_EQUAL | LESS | LESS_EQUAL
  | CONTAINS | NOT_CONTAINS
deriving DecidableEq, Repr

/-- A token as produced by `lexer.lexAll`: the action's `{name, value}`
object extended with `start`/`end` offsets (`end` is a Lean keyword, so the
field is called `stop`).  The source computes
`start = index - value.length` and `end = index` after each `lex()` call. -/
structure Tok where
  name : TokName
  value : List Char
  start : Nat
  stop : Nat
deriving DecidableEq, Repr

/-! ## Character classes used by the rule regexes -/

def isDigitCh (c : Char) : Bool := '0' ≤ c && c ≤ '9'

/-- Class `[_0-9A-Za-z]` (`reNotFollowedByName` and the `nameRegex` tail). -/
def isNameCh (c : Char) : Bool :=
  c == '_' || ('0' ≤ c && c ≤ '9') || ('A' ≤ c && c ≤ 'Z') || ('a' ≤ c && c ≤ 'z')

/-- Class `[_A-Za-z]` (first character of a `nameRegex` segment). -/
def isNameStartCh (c : Char) : Bool :=
  c == '_' || ('A' ≤ c && c ≤ 'Z') || ('a' ≤ c && c ≤ 'z')

/-- Class `[ \t\v\f ]` (`whitespaceRegex`); note `\n` is not included. -/
def isWhiteCh (c : Char) : Bool :=
  c == ' ' || c == '\t' || c == Char.ofNat 11 || c == Char.ofNat 12 ||
  c == Char.ofNat 160

/-- Hex digit, for `reEscapedUnicode` (`\\u[0-9A-Fa-f]{4}`). -/
def isHexCh (c : Char) : Bool :=
  isDigitCh c || ('a' ≤ c && c ≤ 'f') || ('A' ≤ c && c ≤ 'F')

/-- Line terminators excluded from string bodies (`reLineTerminators`). -/
def isLineTermCh (c : Char) : Bool :=
  c == '\n' || c == '\r' || c == Char.ofNat 0x2028 || c == Char.ofNat 0x2029

/-- Single characters allowed after a backslash by `reEscapedChar`
(`\\[\\"/bfnrt]`). -/
def isEscCh (c : Char) : Bool :=
  c == '\\' || c == '"' || c == '/' || c == 'b' || c == 'f' || c == 'n' ||
  c == 'r' || c == 't'

/-! ## Rule matchers

Each matcher returns the length of the rule's (greedy) regex match anchored
at the head of the input, or `none`.  The vendored `Lexer` engine the source
feeds these rules to (`lib/lexer.js`, not under `src/`) anchors each rule
regex at the current scan position (`result.index === lastIndex`). -/

def takeWhileLen (p : Char → Bool) : List Char → Nat
  | [] => 0
  | c :: cs => if p c then takeWhileLen p cs + 1 else 0

/-- Single-character rule such as `/\./` or `/=/`. -/
def matchChar (c : Char) : List Char → Option Nat
  | x :: _ => if x == c then some 1 else none
  | [] => none

/-- Two-character rule such as `/!=/` or `/>=/`. -/
def matchTwo (c1 c2 : Char) : List Char → Option Nat
  | x :: y :: _ => if x == c1 && y == c2 then some 2 else none
  | _ => none

/-- `whitespaceRegex = [ \t\v\f ]+`. -/
def matchWhite (l : List Char) : Option Nat :=
  let n := takeWhileLen isWhiteCh l
  if n == 0 then none else some n

/-- Keyword followed by `reNotFollowedByName = (?![_0-9A-Za-z])`: the literal
word matches only when the next character (if any) cannot continue a name. -/
def kwOk : List Char → List Char → Bool
  | [], rest =>
    match rest with
    | [] => true
    | c :: _ => !isNameCh c
  | k :: ks, c :: cs => k == c && kwOk ks cs
  | _ :: _, [] => false

def matchKw (kw : List Char) (l : List Char) : Option Nat :=
  if kwOk kw l then some kw.length else none

/-- Length of the `(\.[_A-Za-z][_0-9A-Za-z]*)*` tail of `nameRegex`:
greedily consume `.`-separated name segments.  Structural recursion on a
fuel argument; every iteration consumes at least two characters, so
`l.length` fuel always suffices. -/
def dottedRestF : Nat → List Char → Nat
  | 0, _ => 0
  | fuel + 1, l =>
    match l with
    | '.' :: c :: cs =>
      if isNameStartCh c then
        let n := takeWhileLen isNameCh cs
        2 + n + dottedRestF fuel (cs.drop n)
      else 0
    | _ => 0

def dottedRest (l : List Char) : Nat := dottedRestF l.length l

/-- `nameRegex = [_A-Za-z][_0-9A-Za-z]*(\.[_A-Za-z][_0-9A-Za-z]*)*`. -/
def matchName : List Char → Option Nat
  | c :: cs =>
    if isNameStartCh c then
      let n := 1 + takeWhileLen isNameCh cs
      some (n + dottedRest ((c :: cs).drop n))
    else none
  | [] => none

/-- Body of `stringRegex` after the opening quote: a run of
`reEscapedChar | reEscapedUnicode | reStringChar` elements.  Returns the body
length when a closing quote follows, `none` otherwise.  The alternatives are
mutually exclusive on their first characters, so the regex's backtracking
search is equivalent to this deterministic scan. -/
def stringBody : List Char → Option Nat
  | [] => none
  | '"' :: _ => some 0
  | '\\' :: rest =>
    match rest with
    | [] => none
    | e :: cs =>
      if isEscCh e then
        match stringBody cs with
        | some n => some (n + 2)
        | none => none
      else if e == 'u' then
        match cs with
        | h1 :: h2 :: h3 :: h4 :: cs2 =>
          if isHexCh h1 && isHexCh h2 && isHexCh h3 && isHexCh h4 then
            match stringBody cs2 with
            | some n => some (n + 6)
            | none => none
          else none
        | _ => none
      else none
  | c :: cs =>
    if isLineTermCh c then none
    else
      match stringBody cs with
      | some n => some (n + 1)
      | none => none

/-- `stringRegex = \"(escaped|unicode|stringchar)*\"`. -/
def matchString : List Char → Option Nat
  | c :: cs =>
    if c == '"' then
      match stringBody cs with
      | some n => some (n + 2)
      | none => none
    else none
  | [] => none

/-- `reIntValue = (-?0|-?[1-9][0-9]*)` without the optional sign: the two
alternatives are tried left to right as in the regex. -/
def matchUInt : List Char → Option Nat
  | [] => none
  | c :: cs =>
    if c == '0' then some 1
    else if '1' ≤ c && c ≤ '9' then some (1 + takeWhileLen isDigitCh cs)
    else none

/-- `intRegex = (-?0|-?[1-9][0-9]*)`. -/
def matchInt : List Char → Option Nat
  | '-' :: cs =>
    match matchUInt cs with
    | some n => some (n + 1)
    | none => none
  | l => matchUInt l

/-- `reFractionPart = \.[0-9]+`. -/
def matchFrac : List Char → Option Nat
  | '.' :: cs =>
    let n := takeWhileLen isDigitCh cs
    if n == 0 then none else some (n + 1)
  | _ => none

/-- `reExponentPart = [eE][+-]?[0-9]+`. -/
def matchExp : List Char → Option Nat
  | c :: cs =>
    if c == 'e' || c == 'E' then
      match cs with
      | s :: cs2 =>
        if s == '+' || s == '-' then
          let n := takeWhileLen isDigitCh cs2
          if n == 0 then none else some (n + 2)
        else
          let n := takeWhileLen isDigitCh cs
          if n == 0 then none else some (n + 1)
      | [] => none
    else none
  | [] => none

/-- Sequencing of two anchored matchers (regex concatenation; the pieces are
delimiter-disjoint, so greedy matching never needs to backtrack across the
boundary). -/
def seq2 (m1 m2 : List Char → Option Nat) (l : List Char) : Option Nat :=
  match m1 l with
  | none => none
  | some a =>
    match m2 (l.drop a) with
    | none => none
    | some b => some (a + b)

/-- `floatRegex = int frac exp | int frac | int exp`, alternatives tried in
the source's order. -/
def matchFloat (l : List Char) : Option Nat :=
  match seq2 (seq2 matchInt matchFrac) matchExp l with
  | some n => some n
  | none =>
    match seq2 matchInt matchFrac l with
    | some n => some n
    | none => seq2 matchInt matchExp l

/-! ## The rule table and the scan loop -/

/-- What a rule's action does with the matched lexeme: the whitespace rule
produces no token, the `STRING_VALUE` rule strips the surrounding quotes
(`l.slice(1, l.length - 1)`), every other rule keeps the lexeme. -/
inductive RuleTag where
  | skip
  | tok (n : TokName)
  | strTok
deriving DecidableEq, Repr

/-- The `lexer.addRule` calls, in source order (lines 75-115). -/
def rules : List ((List Char → Option Nat) × RuleTag) :=
  [ (matchWhite, .skip),
    (matchChar '.', .tok .DOT),
    (matchChar ',', .tok .COMMA),
    (matchKw "or".data, .tok .OR),
    (matchKw "and".data, .tok .AND),
    (matchKw "not".data, .tok .NOT),
    (matchKw "in".data, .tok .IN),
    (matchKw "True".data, .tok .TRUE),
    (matchKw "False".data, .tok .FALSE),
    (matchKw "None".data, .tok .NONE),
    (matchName, .tok .NAME),
    (matchString, .strTok),
    (matchInt, .tok .INT_VALUE),
    (matchFloat, .tok .FLOAT_VALUE),
    (matchChar '(', .tok .PAREN_L),
    (matchChar ')', .tok .PAREN_R),
    (matchChar '=', .tok .EQUALS),
    (matchTwo '!' '=', .tok .NOT_EQUALS),
    (matchChar '>', .tok .GREATER),
    (matchTwo '>' '=', .tok .GREATER_EQUAL),
    (matchChar '<', .tok .LESS),
    (matchTwo '<' '=', .tok .LESS_EQUAL),
    (matchChar '~', .tok .CONTAINS),
    (matchTwo '!' '~', .tok .NOT_CONTAINS) ]

/-- Rule selection of the vendored `Lexer` engine: every rule is matched at
the current position and the longest match wins, a tie going to the rule
added first (the engine's insertion sort moves a later match ahead only when
it is strictly longer). -/
def pickBest : List ((List Char → Option Nat) × RuleTag) → List Char →
    Option (Nat × RuleTag)
  | [], _ => none
  | (m, tag) :: rest, l =>
    match m l, pickBest rest l with
    | none, r => r
    | some n, none => some (n, tag)
    | some n, some (n2, t2) => if n2 > n then some (n2, t2) else some (n, tag)

/-- Token construction in `lexAll`: `match.start = this.index -
match.value.length; match.end = this.index`, where `this.index` is the end of
the consumed lexeme.  For a `STRING_VALUE` the value is shorter than the
lexeme, so `start` does not reach back to the opening quote. -/
def mkTok (nm : TokName) (value : List Char) (pos n : Nat) : Tok :=
  ⟨nm, value, pos + n - value.length, pos + n⟩

/-- One engine step per fuel unit: take the best rule match, or silently
swallow one character when no rule matches (the error handler passed to
`new Lexer` ignores the character).  Every rule consumes at least one
character, so `input.length + 1` fuel always suffices. -/
def lexLoop : Nat → List Char → Nat → List Tok
  | 0, _, _ => []
  | fuel + 1, l, pos =>
    match l with
    | [] => []
    | c :: cs =>
      match pickBest rules (c :: cs) with
      | none => lexLoop fuel cs (pos + 1)
      | some (n, .skip) => lexLoop fuel ((c :: cs).drop n) (pos + n)
      | some (n, .tok nm) =>
        mkTok nm ((c :: cs).take n) pos n ::
          lexLoop fuel ((c :: cs).drop n) (pos + n)
      | some (n, .strTok) =>
        mkTok .STRING_VALUE ((((c :: cs).take n).drop 1).dropLast) pos n ::
          lexLoop fuel ((c :: cs).drop n) (pos + n)

/-- `lexer.lexAll`: collect every recognized token in order. -/
def lexAll (text : List Char) : List Tok :=
  lexLoop (text.length + 1) text 0

/-! ## Schema graph -/

/-- One introspection field definition: `{type: ..., relation?: ...}`.
The `type` tag is the stringly-typed kind the source compares against
`'relation'`, `'bool'` and `'str'`; `relation` is absent (`none`) on scalar
fields. -/
structure FieldDef where
  type : String
  relation : Option (List Char)
deriving DecidableEq, Repr

/-- The widget's schema state: `currentModel` and `models` as delivered by
introspection.  JavaScript objects keyed by strings are embedded as
association lists in insertion order (`Object.keys` enumerates string keys
in that order). -/
structure Graph where
  currentModel : Option (List Char)
  models : List ((List Char) × List ((List Char) × FieldDef))
deriving Repr

/-- Property lookup `obj[key]` on an object embedded as an association list:
`none` is JavaScript `undefined`. -/
def findAssoc {α : Type} (l : List ((List Char) × α)) (k : List Char) :
    Option α :=
  match l.find? (fun p => p.1 == k) with
  | some p => some p.2
  | none => none

/-! ## Name resolver -/

/-- Result object of `resolveName`: `{model: ..., field: ...}`. -/
structure ResolvedName where
  model : Option (List Char)
  field : Option (List Char)
deriving DecidableEq, Repr

/-- `prefix.split('.')` on the embedded string: always returns at least one
(possibly empty) segment, like the JavaScript `String.prototype.split`. -/
def splitDots : List Char → List (List Char)
  | [] => [[]]
  | c :: cs =>
    if c == '.' then [] :: splitDots cs
    else
      match splitDots cs with
      | h :: t => (c :: h) :: t
      | [] => [[c]]

/-- `nameParts.join('.')`. -/
def joinDots : List (List Char) → List Char
  | [] => []
  | [x] => x
  | x :: xs => x ++ '.' :: joinDots xs

/-- The `for` loop of `resolveName`, iterating over the split segments with
the mutable `model`/`field` variables as parameters.  The expression
`this.models[model][nameParts[i]]` throws a `TypeError` when
`this.models[model]` is `undefined` — i.e. when `model` is `undefined`
(a relation field without a `relation` key) or names a model absent from
`models` (a dangling relation target); both cases are `.error ()`. -/
def resolveLoop (g : Graph) :
    List (List Char) → Option (List Char) → Option (List Char) →
    Except Unit ResolvedName
  | [], model, field => .ok ⟨model, field⟩
  | part :: rest, model, _field =>
    match model with
    | none => .error ()
    | some m =>
      match findAssoc g.models m with
      | none => .error ()
      | some fields =>
        match findAssoc fields part with
        | none => .ok ⟨none, none⟩
        | some f =>
          if f.type == "relation" then resolveLoop g rest f.relation none
          else resolveLoop g rest (some m) (some part)

/-- `resolveName(name)` (source lines 418-443): walk the dotted path from
`this.currentModel`; when `currentModel` is null the loop is skipped and
`{model: null, field: null}` is returned. -/
def resolveName (g : Graph) (name : List Char) : Except Unit ResolvedName :=
  match g.currentModel with
  | none => .ok ⟨none, none⟩
  | some m => resolveLoop g (splitDots name) (some m) none

/-! ## Context resolver -/

inductive Scope where
  | field | comparison | value | logical
deriving DecidableEq, Repr

/-- Return object of `getContext`; `scope = none` is the `null` scope and
`pfx` embeds the source's `prefix` variable. -/
structure Context where
  pfx : List Char
  scope : Option Scope
  model : Option (List Char)
  field : Option (List Char)
deriving DecidableEq, Repr

/-- `prefix.match(whitespaceRegex)`: length of the first whitespace run
anywhere in the string (the regex is not anchored), `none` when there is no
whitespace at all. -/
def firstWhiteRun : List Char → Option Nat
  | [] => none
  | c :: cs =>
    if isWhiteCh c then some (takeWhileLen isWhiteCh cs + 1)
    else firstWhiteRun cs

def tokNameIs (t : Option Tok) (n : TokName) : Bool :=
  match t with
  | some t => t.name == n
  | none => false

/-- `['AND', 'OR'].indexOf(token.name) >= 0`. -/
def isAndOr (t : Option Tok) : Bool :=
  tokNameIs t .AND || tokNameIs t .OR

/-- Membership in the comparison-operator list of the value-scope branch. -/
def isCompOpName (n : TokName) : Bool :=
  n == .EQUALS || n == .NOT_EQUALS || n == .CONTAINS || n == .NOT_CONTAINS ||
  n == .GREATER_EQUAL || n == .GREATER || n == .LESS_EQUAL || n == .LESS

/-- Body shared by the field-scope branch of `getContext` once the effective
prefix is fixed: split on dots; a multi-part prefix resolves its leading
parts (re-joined with `'.'`, exactly as the source calls
`this.resolveName(nameParts.join('.'))`) and keeps only the last part as the
literal prefix; resolution to a terminal field or to nothing collapses the
scope to `null`. -/
def fieldCore (g : Graph) (pfxIn : List Char) : Except Unit Context :=
  let nameParts := splitDots pfxIn
  if 1 < nameParts.length then
    let lastPart := nameParts.getLastD []
    match resolveName g (joinDots nameParts.dropLast) with
    | .error e => .error e
    | .ok r =>
      if r.model.isSome && r.field.isNone then
        .ok ⟨lastPart, some .field, r.model, none⟩
      else
        .ok ⟨lastPart, none, none, none⟩
  else
    .ok ⟨pfxIn, some .field, g.currentModel, none⟩

/-- `getContext(text, cursorPos)` (source lines 445-535).  The two
`.error ()` fallbacks marked unreachable are guarded by the enclosing
conditions (`tokNameIs _ .NAME` forces the option to be `some`); the
`.error ()` in the dotted-prefix case is reachable and faithful: with no
completed token and prefix `'.'` the source evaluates `lastToken.start` on
`null` and throws. -/
def getContext (g : Graph) (text : List Char) (cursorPos : Nat) :
    Except Unit Context :=
  let input := text.take cursorPos
  let tokens1 := lexAll input
  let tokens :=
    match tokens1.getLast? with
    | some t => if cursorPos ≤ t.stop then tokens1.dropLast else tokens1
    | none => tokens1
  let lastToken := tokens.getLast?
  let ntl := tokens.dropLast.getLast?
  let pfx0 := input.drop (match lastToken with | some t => t.stop | none => 0)
  let ws := firstWhiteRun pfx0
  let pfx1 := match ws with | some n => pfx0.drop n | none => pfx0
  let pfx := if pfx1 == ['('] then [] else pfx1
  if pfx == [')'] && ws.isNone then
    .ok ⟨pfx, none, none, none⟩
  else if lastToken.isNone ||
      (isAndOr lastToken && ws.isSome) ||
      (pfx == ['.'] && lastToken.isSome && ws.isNone) ||
      (tokNameIs lastToken .PAREN_L && (ntl.isNone || isAndOr ntl)) then
    if pfx == ['.'] then
      match lastToken with
      | none => .error ()
      | some lt => fieldCore g (input.drop lt.start)
    else fieldCore g pfx
  else if lastToken.isSome && ws.isSome && tokNameIs ntl .NAME &&
      (match lastToken with | some t => isCompOpName t.name | none => false) then
    match ntl with
    | some nt =>
      match resolveName g nt.value with
      | .error e => .error e
      | .ok r =>
        if r.model.isSome then .ok ⟨pfx, some .value, r.model, r.field⟩
        else .ok ⟨pfx, none, none, none⟩
    | none => .error ()
  else if lastToken.isSome && ws.isSome && tokNameIs lastToken .NAME then
    match lastToken with
    | some lt =>
      match resolveName g lt.value with
      | .error e => .error e
      | .ok r =>
        if r.model.isSome then .ok ⟨pfx, some .comparison, r.model, r.field⟩
        else .ok ⟨pfx, none, none, none⟩
    | none => .error ()
  else if (match lastToken with
           | some t => ws.isSome && (t.name == .PAREN_R ||
               t.name == .INT_VALUE || t.name == .FLOAT_VALUE ||
               t.name == .STRING_VALUE)
           | none => false : Bool) then
    .ok ⟨pfx, some .logical, none, none⟩
  else
    .ok ⟨pfx, none, none, none⟩

/-! ## Suggestion generator -/

/-- The JavaScript property read `context.field.type`: `getContext` stores
the resolved field's NAME string in `context.field` (`resolveName` records
`nameParts[i]`), and a string has no `type` property, so the read yields
`undefined` (`none`) whenever `context.field` is set. -/
def contextFieldType (_field : Option (List Char)) : Option String := none

/-- The `case 'comparison'` branch of `generateSuggestions` (source lines
554-565): start from `['=', '!=']`; when `context.field` is truthy and
`context.field.type !== 'bool'`, optionally add `['~', '!~']` when
`context.field.type === 'str'` and then the ordering operators. -/
def comparisonSuggestions (field : Option (List Char)) : List (List Char) :=
  let s0 := ["=".data, "!=".data]
  if field.isSome && !(contextFieldType field == some "bool") then
    (if contextFieldType field == some "str" then
      s0 ++ ["~".data, "!~".data]
     else s0) ++
    [">".data, ">=".data, "<".data, "<=".data, "in".data, "not in".data]
  else s0

/-- `item.lastIndexOf(prefix, 0) === 0`: the starts-with idiom of the final
filter, scanning character by character from the start. -/
def listStarts : List Char → List Char → Bool
  | [], _ => true
  | _ :: _, [] => false
  | p :: ps, c :: cs => p == c && listStarts ps cs

/-- The final filter of `generateSuggestions` (source lines 575-578): keep
the candidates that start with the context's prefix, in order. -/
def suggestionFilter (pfx : List Char) (items : List (List Char)) :
    List (List Char) :=
  items.filter (fun s => listStarts pfx s)

/-- The pure pipeline of `generateSuggestions` (source lines 537-579),
without the UI selection check: compute the context, branch on its scope
(`Object.keys(this.models[context.model])` throws when `context.model` is
null or not a key of `models`; the `default` branch — `null` and `'value'`
scopes — resets the prefix and the suggestions), then apply the final
starts-with filter. -/
def generateSuggestions (g : Graph) (text : List Char) (cursorPos : Nat) :
    Except Unit (List Char × List (List Char)) :=
  match getContext g text cursorPos with
  | .error e => .error e
  | .ok ctx =>
    match ctx.scope with
    | some .field =>
      match ctx.model with
      | some m =>
        match findAssoc g.models m with
        | some fields =>
          .ok (ctx.pfx,
            suggestionFilter ctx.pfx (fields.map (fun p => p.1)))
        | none => .error ()
      | none => .error ()
    | some .comparison =>
      .ok (ctx.pfx, suggestionFilter ctx.pfx (comparisonSuggestions ctx.field))
    | some .logical =>
      .ok (ctx.pfx, suggestionFilter ctx.pfx ["and".data, "or".data])
    | _ => .ok ([], suggestionFilter [] [])

/-! ## Example graphs used by the concrete claims -/

/-- The spec's example graph: `Order.customer` is a relation to `Customer`,
`Customer.name` is a `str` scalar. -/
def demoGraph : Graph :=
  ⟨some "Order".data,
   [("Order".data, [("customer".data, ⟨"relation", some "Customer".data⟩)]),
    ("Customer".data, [("name".data, ⟨"str", none⟩)])]⟩

/-- A graph violating the schema invariant: `A.r` is a relation whose target
model `B` is not a key of `models`. -/
def danglingGraph : Graph :=
  ⟨some "A".data, [("A".data, [("r".data, ⟨"relation", some "B".data⟩)])]⟩

/-- A root model with a `str` field and a `bool` field. -/
def strBoolGraph : Graph :=
  ⟨some "Customer".data,
   [("Customer".data,
     [("name".data, ⟨"str", none⟩), ("active".data, ⟨"bool", none⟩)])]⟩

/-! ## Span well-formedness of the token stream -/

/-- Spans starting no earlier than `lo`: every token has `start ≤ stop`,
each token starts no earlier than the previous token's `stop` (so spans are
non-overlapping and non-decreasing). -/
def spansOk : Nat → List Tok → Prop
  | _, [] => True
  | lo, t :: ts => lo ≤ t.start ∧ t.start ≤ t.stop ∧ spansOk t.stop ts

theorem spansOk_mono {lo lo' : Nat} {ts : List Tok} (h : lo ≤ lo')
    (hs : spansOk lo' ts) : spansOk lo ts := by
  cases ts with
  | nil => trivial
  | cons t ts => exact ⟨Nat.le_trans h hs.1, hs.2.1, hs.2.2⟩

theorem lexLoop_spans (fuel : Nat) :
    ∀ (l : List Char) (pos : Nat), spansOk pos (lexLoop fuel l pos) := by
  induction fuel with
  | zero => intro l pos; simp [lexLoop, spansOk]
  | succ fuel ih =>
    intro l pos
    cases l with
    | nil => simp [lexLoop, spansOk]
    | cons c cs =>
      simp only [lexLoop]
      cases hb : pickBest rules (c :: cs) with
      | none =>
        exact spansOk_mono (Nat.le_succ pos) (ih cs (pos + 1))
      | some nt =>
        obtain ⟨n, tag⟩ := nt
        cases tag with
        | skip => exact spansOk_mono (Nat.le_add_right pos n) (ih _ _)
        | tok nm =>
          have hl : ((c :: cs).take n).length ≤ n := by
            simp [List.length_take]
          refine ⟨?_, ?_, ih _ _⟩
          all_goals simp only [mkTok]
          all_goals omega
        | strTok =>
          have hl : ((((c :: cs).take n).drop 1).dropLast).length ≤ n := by
            simp [List.length_dropLast, List.length_drop, List.length_take]
            omega
          refine ⟨?_, ?_, ih _ _⟩
          all_goals simp only [mkTok]
          all_goals omega

/-! ## Schema invariant for total name resolution -/

/-- A relation field definition carries a target that is a key of `models`. -/
def relTargetOk (g : Graph) (fd : FieldDef) : Bool :=
  match fd.relation with
  | some tgt => (findAssoc g.models tgt).isSome
  | none => false

/-- The spec's schema invariant, plus a resolvable root: the current model,
when set, is a key of `models`, and every `relation` field's target model
name is a key of `models`. -/
def graphInv (g : Graph) : Bool :=
  (match g.currentModel with
   | some m => (findAssoc g.models m).isSome
   | none => true) &&
  g.models.all (fun p =>
    p.2.all (fun q => !(q.2.type == "relation") || relTargetOk g q.2))

theorem findAssoc_mem {α : Type} {l : List ((List Char) × α)}
    {k : List Char} {v : α} (h : findAssoc l k = some v) :
    ∃ p, p ∈ l ∧ p.2 = v := by
  unfold findAssoc at h
  cases hf : l.find? (fun p => p.1 == k) with
  | none => rw [hf] at h; exact absurd h (by simp)
  | some p =>
    rw [hf] at h
    exact ⟨p, List.mem_of_find?_eq_some hf, by injection h⟩

theorem resolveLoop_total (g : Graph) (h : graphInv g = true) :
    ∀ (parts : List (List Char)) (m : List Char) (field : Option (List Char)),
      (findAssoc g.models m).isSome = true →
      ∃ r, resolveLoop g parts (some m) field = .ok r ∧
        (r.model.isNone = true → r.field.isNone = true) := by
  unfold graphInv at h
  rw [Bool.and_eq_true] at h
  intro parts
  induction parts with
  | nil =>
    intro m field _
    exact ⟨⟨some m, field⟩, rfl, by simp⟩
  | cons part rest ih =>
    intro m field hm
    obtain ⟨fields, hf⟩ := Option.isSome_iff_exists.mp hm
    simp only [resolveLoop, hf]
    cases hff : findAssoc fields part with
    | none => exact ⟨⟨none, none⟩, rfl, by simp⟩
    | some f =>
      by_cases hrel : (f.type == "relation") = true
      · simp only [hrel, if_true]
        obtain ⟨p, hp, hp2⟩ := findAssoc_mem hf
        obtain ⟨q, hq, hq2⟩ := findAssoc_mem hff
        have h2 := h.2
        have h3 := (List.all_eq_true.mp h2) p hp
        have h4 := (List.all_eq_true.mp (by rw [hp2] at h3; exact h3)) q hq
        rw [hq2] at h4
        rw [Bool.or_eq_true, Bool.not_eq_true'] at h4
        rcases h4 with h4 | h4
        · rw [hrel] at h4; cases h4
        · unfold relTargetOk at h4
          cases hrt : f.relation with
          | none => rw [hrt] at h4; cases h4
          | some tgt =>
            rw [hrt] at h4
            exact ih tgt none (by simpa using h4)
      · rw [Bool.not_eq_true] at hrel
        simp only [hrel, Bool.false_eq_true, if_false]
        exact ih m (some part) hm


/-! ## Claim C1 -/

/-- Claim C1 counterexample: on a graph whose relation field `A.r` targets a
model `B` absent from `models`, resolving the path `r.x` from root `A` does
not return a `ResolvedName` at all — the member access
`this.models['B']['x']` throws a `TypeError` (embedded as `.error ()`), so
`resolveName` is not total and the dangling-relation case does not degrade
to `{model: null, field: null}`. -/
theorem resolveName_dangling_throws :
    resolveName danglingGraph "r.x".data = Except.error () := by rfl

/-- Claim C1 (amended): `resolveName` returns a `ResolvedName` for every
dotted path — including empty or malformed segments — and signals failure
only as `{model: null, field: null}`, PROVIDED the graph satisfies the
schema invariant: the root model (when set) is a key of `models` and every
relation field's target model name is a key of `models`.  Without that
invariant the dangling-relation case throws instead of degrading. -/
theorem resolveName_total_under_invariant (g : Graph)
    (h : graphInv g = true) (name : List Char) :
    ∃ r, resolveName g name = .ok r ∧
      (r.model.isNone = true → r.field.isNone = true) := by
  have h1 : (match g.currentModel with
             | some m => (findAssoc g.models m).isSome
             | none => true) = true := by
    unfold graphInv at h
    rw [Bool.and_eq_true] at h
    exact h.1
  unfold resolveName
  cases hc : g.currentModel with
  | none => exact ⟨⟨none, none⟩, rfl, by simp⟩
  | some m =>
    rw [hc] at h1
    exact resolveLoop_total g h (splitDots name) m none h1

/-- Witness for C1: the invariant-satisfying example graph, at the concrete
path `customer.name`. -/
theorem resolveName_total_under_invariant_witness :
    graphInv demoGraph = true ∧
    ∃ r, resolveName demoGraph "customer.name".data = .ok r ∧
      (r.model.isNone = true → r.field.isNone = true) :=
  ⟨by decide,
   resolveName_total_under_invariant demoGraph (by decide)
     "customer.name".data⟩

/-! ## Claim C2 -/

/-- Claim C2 counterexample: tokenizing the two-character input `""` (an
empty string literal) produces a token whose `start` equals its `stop`:
the carried value is empty after quote-stripping and `lexAll` computes
`start = index - value.length = 2 = end`, so `start < end` fails. -/
theorem lexAll_empty_string_start_not_lt_stop :
    ¬ (∀ t ∈ lexAll ['"', '"'], t.start < t.stop) := by decide

/-- Claim C2 (amended): tokenizing is total — `lexAll` returns a token
sequence for every input string — and every returned token satisfies
`start ≤ end` (not the claimed strict `start < end`, which fails for the
empty string literal), with the spans of consecutive tokens non-overlapping
and non-decreasing: each token's `start` is at least the previous token's
`end`. -/
theorem lexAll_spans_wellformed (text : List Char) :
    spansOk 0 (lexAll text) :=
  lexLoop_spans (text.length + 1) text 0

/-! ## Claim C3 -/

/-- Claim C3: each two-character operator lexes as exactly one token of the
corresponding kind — `!=` as `NOT_EQUALS`, `>=` as `GREATER_EQUAL`, `<=` as
`LESS_EQUAL`, `!~` as `NOT_CONTAINS` — never as two one-character operator
tokens.  (The engine picks the longest match at each position, so the
one-character rules added earlier cannot truncate these.) -/
theorem lexAll_two_char_operators :
    lexAll "!=".data = [⟨.NOT_EQUALS, "!=".data, 0, 2⟩] ∧
    lexAll ">=".data = [⟨.GREATER_EQUAL, ">=".data, 0, 2⟩] ∧
    lexAll "<=".data = [⟨.LESS_EQUAL, "<=".data, 0, 2⟩] ∧
    lexAll "!~".data = [⟨.NOT_CONTAINS, "!~".data, 0, 2⟩] := by decide

/-! ## Claim C8 -/

/-- Claim C8: tokenizing the six-character input `"a\"b"` yields a single
`STRING_VALUE` token whose carried value is the four-character text `a\"b` —
only the surrounding quotes are stripped, the escape sequence is preserved
exactly as written, not unescaped. -/
theorem lexAll_string_escape_preserved :
    lexAll ['"', 'a', '\\', '"', 'b', '"'] =
      [⟨.STRING_VALUE, ['a', '\\', '"', 'b'], 2, 6⟩] := by decide

/-! ## Claim C5 -/

/-- Claim C5: on the example graph, resolving `customer.name` from root
`Order` follows the relation into `Customer` and ends at the terminal field
`name`; resolving `customer.name.x` fails as `{model: null, field: null}`,
because the segment `x` is looked up after the terminal scalar field `name`
and is not found, short-circuiting the walk. -/
theorem resolveName_follows_relations :
    resolveName demoGraph "customer.name".data =
      .ok ⟨some "Customer".data, some "name".data⟩ ∧
    resolveName demoGraph "customer.name.x".data = .ok ⟨none, none⟩ := by
  exact ⟨rfl, rfl⟩

/-! ## Claim C6 -/

/-- Claim C6: on the example graph, `getContext` at text `customer ` with
the cursor at position 9 (after the trailing space) classifies the position
as `COMPARISON` scope with model `Customer`, field `null` and an empty
prefix: the completed bare name resolves to a model. -/
theorem getContext_bare_name_comparison :
    getContext demoGraph "customer ".data 9 =
      .ok ⟨[], some .comparison, some "Customer".data, none⟩ := by rfl

/-! ## Claim C9 -/

/-- Claim C9: an opening parenthesis preceded by nothing (`(` at cursor 1)
or by `and` (`a and (` at cursor 7) puts the resolver in `FIELD` scope on
the root model, but a preceding `NOT` token does not: `not (` at cursor 5
yields the `null` scope (empty suggestions). -/
theorem getContext_paren_field_scope_not_excluded :
    getContext demoGraph "not (".data 5 = .ok ⟨[], none, none, none⟩ ∧
    getContext demoGraph "(".data 1 =
      .ok ⟨[], some .field, some "Order".data, none⟩ ∧
    getContext demoGraph "a and (".data 7 =
      .ok ⟨[], some .field, some "Order".data, none⟩ := by
  exact ⟨rfl, rfl, rfl⟩

/-! ## Claim C4 -/

/-- Claim C4 (code bug): the comparison-scope suggestions do NOT depend on
the resolved field's scalar kind.  `getContext` stores the field's NAME
string in `context.field`, so `context.field.type` is `undefined`: the
`!== 'bool'` guard is always true and the `=== 'str'` guard always false.
For the `str` field `name` the emitted list lacks `~` and `!~`, and for the
`bool` field `active` it is not restricted to `=`, `!=` — both get exactly
`=, !=, >, >=, <, <=, in, not in`, contradicting the specified per-kind
lists. -/
theorem comparison_suggestions_ignore_field_type :
    generateSuggestions strBoolGraph "name ".data 5 =
      .ok ([], ["=".data, "!=".data, ">".data, ">=".data, "<".data,
                "<=".data, "in".data, "not in".data]) ∧
    generateSuggestions strBoolGraph "active ".data 7 =
      .ok ([], ["=".data, "!=".data, ">".data, ">=".data, "<".data,
                "<=".data, "in".data, "not in".data]) := by
  exact ⟨rfl, rfl⟩

/-! ## Claim C10 -/

/-- Claim C10: when the comparison branch runs with `context.field = null`
(the last name resolved to a relation/model, not a terminal field), the
unfiltered suggestion list is exactly `['=', '!=']`; on the example graph
the full pipeline at `customer ` (a relation) emits exactly those two. -/
theorem comparison_suggestions_relation_exact :
    comparisonSuggestions none = ["=".data, "!=".data] ∧
    generateSuggestions demoGraph "customer ".data 9 =
      .ok ([], ["=".data, "!=".data]) := by
  exact ⟨rfl, rfl⟩

/-! ## Claim C7 -/

theorem listStarts_iff (p s : List Char) :
    listStarts p s = true ↔ ∃ t, s = p ++ t := by
  induction p generalizing s with
  | nil =>
    constructor
    · intro _; exact ⟨s, rfl⟩
    · intro _; rfl
  | cons c ps ih =>
    cases s with
    | nil =>
      simp only [listStarts, List.cons_append]
      constructor
      · intro h; cases h
      · rintro ⟨t, ht⟩; cases ht
    | cons a as =>
      simp only [listStarts, List.cons_append, Bool.and_eq_true, beq_iff_eq,
        List.cons.injEq, ih]
      constructor
      · rintro ⟨rfl, t, rfl⟩; exact ⟨t, rfl, rfl⟩
      · rintro ⟨t, rfl, rfl⟩; exact ⟨rfl, t, rfl⟩

/-- Claim C7: the final suggestion filter keeps exactly the candidates whose
text starts with the context's prefix — a case-sensitive literal prefix
match, expressed here as `∃ t, s = pfx ++ t` on the character lists — and
preserves the relative order of the unfiltered candidate list (the output is
a sublist of the input). -/
theorem suggestionFilter_exact_and_ordered (pfx : List Char)
    (items : List (List Char)) :
    List.Sublist (suggestionFilter pfx items) items ∧
    ∀ s, s ∈ suggestionFilter pfx items ↔
      s ∈ items ∧ ∃ t, s = pfx ++ t := by
  constructor
  · exact List.filter_sublist items
  · intro s
    rw [suggestionFilter, List.mem_filter, listStarts_iff]

end DjangoQL
